import Mathlib

/-!
Shallow embedding of the content-extraction spider
(`book_crawler/spiders/keyword_tags_spider.py`).

Text is modelled as `List Char` (one entry per Unicode code point, as in a
Python `str`).  Regular-expression operations of the source are unfolded into
explicit recursive scanners over the character list.  Character classes that
Python's `re` module treats as Unicode-aware (`\w`, `\d`) are modelled over
their ASCII core, which is exact for every pattern literal appearing in the
source.
-/

set_option maxHeartbeats 1000000

/-- Python whitespace (`str.isspace` / regex `\s` for `str` patterns):
the ASCII whitespace characters, the C1 separators, NBSP and the Unicode
space separators. -/
def isPySpace (c : Char) : Bool :=
  let n := c.toNat
  n = 32 || n = 9 || n = 10 || n = 13 || n = 11 || n = 12 ||
  (28 ≤ n && n ≤ 31) || n = 0x85 || n = 0xa0 || n = 0x1680 ||
  (0x2000 ≤ n && n ≤ 0x200a) || n = 0x2028 || n = 0x2029 ||
  n = 0x202f || n = 0x205f || n = 0x3000

/-- The character class of `clean_text`'s second substitution:
`[\x00-\x1F\x7F-\x9F ]` (controls, C1 block, NBSP). -/
def isCtrl (c : Char) : Bool :=
  let n := c.toNat
  n ≤ 0x1f || (0x7f ≤ n && n ≤ 0x9f) || n = 0xa0

/-- The character class `[a-zA-Z0-9#]` of the HTML-entity pattern in
`clean_text`. -/
def isEnt (c : Char) : Bool :=
  let n := c.toNat
  (48 ≤ n && n ≤ 57) || (65 ≤ n && n ≤ 90) || (97 ≤ n && n ≤ 122) || n = 35

/-- Regex word character `\w` (ASCII core): letters, digits, underscore. -/
def isWordChar (c : Char) : Bool :=
  let n := c.toNat
  (48 ≤ n && n ≤ 57) || (65 ≤ n && n ≤ 90) || (97 ≤ n && n ≤ 122) || n = 95

/-- The class `[a-zA-Z]` used by the qualifying-word pattern of
`is_good_content`. -/
def isAsciiLetter (c : Char) : Bool :=
  let n := c.toNat
  (65 ≤ n && n ≤ 90) || (97 ≤ n && n ≤ 122)

/-- Regex digit `\d` (ASCII core). -/
def isDigitC (c : Char) : Bool :=
  let n := c.toNat
  48 ≤ n && n ≤ 57

/-- ASCII lower-casing of one character, as performed by the XPath
`translate(., "ABC..", "abc..")` call and (on the ASCII letters) by
Python's `str.lower`. -/
def lowerChar (c : Char) : Char :=
  if 65 ≤ c.toNat && c.toNat ≤ 90 then Char.ofNat (c.toNat + 32) else c

/-- ASCII lower-casing of a string. -/
def asciiLower (cs : List Char) : List Char := cs.map lowerChar

/-- One attempted match of the entity body after an `&`:
`[a-zA-Z0-9#]+;`.  Returns the remainder after the `;` on success.
A match requires the maximal run of entity characters to be nonempty and to
be followed immediately by `;` (shorter runs cannot succeed because the
following character would still be an entity character). -/
def munch (cs : List Char) : Option (List Char) :=
  if (cs.takeWhile isEnt).isEmpty then none
  else
    match cs.drop (cs.takeWhile isEnt).length with
    | ';' :: rest => some rest
    | _ => none

/-- The left-to-right scan of `re.sub(r'&[a-zA-Z0-9#]+;', ' ', text)`,
written with explicit fuel so that it is structurally recursive (a
successful match consumes at least two characters, so `fuel = length`
always suffices; the `0` case is never reached from `sub1`). -/
def sub1F : Nat → List Char → List Char
  | 0, cs => cs
  | _ + 1, [] => []
  | fuel + 1, c :: rest =>
    if c = '&' then
      match munch rest with
      | some rest2 => ' ' :: sub1F fuel rest2
      | none => c :: sub1F fuel rest
    else c :: sub1F fuel rest

/-- `re.sub(r'&[a-zA-Z0-9#]+;', ' ', text)` — the first substitution of
`clean_text`: each HTML-entity escape is replaced by one space, scanning
left to right. -/
def sub1 (cs : List Char) : List Char :=
  sub1F cs.length cs

/-- `re.sub(r'[\x00-\x1F\x7F-\x9F ]', ' ', text)` — the second
substitution of `clean_text`: every control / non-printable character
becomes a space. -/
def sub2 (cs : List Char) : List Char :=
  cs.map (fun c => if isCtrl c then ' ' else c)

/-- Python `str.strip()`: remove leading and trailing whitespace. -/
def pstrip (cs : List Char) : List Char :=
  ((cs.dropWhile isPySpace).reverse.dropWhile isPySpace).reverse

/-- The scan of `re.sub(r'\s+', ' ', ·)`: `inRun` records whether the
scanner is inside a whitespace run whose single replacement space has
already been emitted. -/
def collapseAux : Bool → List Char → List Char
  | _, [] => []
  | inRun, c :: rest =>
    if isPySpace c then
      if inRun then collapseAux true rest else ' ' :: collapseAux true rest
    else c :: collapseAux false rest

/-- `re.sub(r'\s+', ' ', ·)` — collapse every whitespace run to a single
space. -/
def collapseRuns (cs : List Char) : List Char :=
  collapseAux false cs

/-- `KeywordTagSpider.clean_text`: entity removal, control-character
removal, strip, whitespace collapsing; falsy (empty) input yields the
empty string. -/
def clean_text (cs : List Char) : List Char :=
  if cs.isEmpty then [] else collapseRuns (pstrip (sub2 (sub1 cs)))

/-- Scanner for `re.findall(r'\b[a-zA-Z]{3,}\b', ·).length`: `n` is the
length of the current maximal word-character run and `letters` whether it
consists solely of ASCII letters; a completed run counts as one
qualifying word when it is all-letters with length at least 3 (a word
boundary cannot occur inside a word-character run, so a match is exactly
such a maximal run). -/
def qualAux : Nat → Bool → List Char → Nat
  | n, letters, [] => if 3 ≤ n && letters then 1 else 0
  | n, letters, c :: rest =>
    if isWordChar c then qualAux (n + 1) (letters && isAsciiLetter c) rest
    else (if 3 ≤ n && letters then 1 else 0) + qualAux 0 true rest

/-- Number of matches of `\b[a-zA-Z]{3,}\b`: maximal word-character runs
that consist solely of ASCII letters and have length at least 3. -/
def qualWordCount (cs : List Char) : Nat :=
  qualAux 0 true cs

/-- Substring containment (Python's `in` on strings): the needle occurs
contiguously in the haystack. -/
def containsSub : List Char → List Char → Bool
  | [], needle => needle.isEmpty
  | c :: t, needle => needle.isPrefixOf (c :: t) || containsSub t needle

/-- Does `function\s+\w` match starting exactly here? -/
def pat2At (hay : List Char) : Bool :=
  if ("function".toList).isPrefixOf hay then
    let r := hay.drop 8
    (!(r.takeWhile isPySpace).isEmpty) &&
      (match r.dropWhile isPySpace with
       | c :: _ => isWordChar c
       | [] => false)
  else false

/-- `re.search(r'function\s+\w', ·)`. -/
def hasPat2 : List Char → Bool
  | [] => false
  | c :: t => pat2At (c :: t) || hasPat2 t

/-- `re.search(r'\x7b@"?context"@?\x7d', ·)`: the four literal strings the
pattern can denote. -/
def hasPat1 (lt : List Char) : Bool :=
  containsSub lt ("\x7b@context\"\x7d".toList) ||
  containsSub lt ("\x7b@context\"@\x7d".toList) ||
  containsSub lt ("\x7b@\"context\"\x7d".toList) ||
  containsSub lt ("\x7b@\"context\"@\x7d".toList)

/-- `re.search(r'document\.getElementById', ·, re.I)` on lower-cased text. -/
def hasPat3 (lt : List Char) : Bool :=
  containsSub lt ("document.getelementbyid".toList)

/-- `re.search(r'cookie|privacy|term', ·, re.I)` on lower-cased text. -/
def hasPat4 (lt : List Char) : Bool :=
  containsSub lt ("cookie".toList) || containsSub lt ("privacy".toList) ||
    containsSub lt ("term".toList)

/-- `re.search(r'^\s*©|\xa9', ·)`: copyright sign after optional leading
whitespace, or (second alternative) anywhere. -/
def hasPat5 (lt : List Char) : Bool :=
  (match lt.dropWhile isPySpace with
   | c :: _ => c = '©'
   | [] => false) || lt.any (fun c => c = '©')

/-- `re.search(r'^\s*\$[\d,]+', ·)`: a bare currency amount at the start. -/
def hasPat6 (lt : List Char) : Bool :=
  match lt.dropWhile isPySpace with
  | '$' :: c :: _ => isDigitC c || c = ','
  | _ => false

/-- The boilerplate test of `is_good_content`: any of the six patterns
matches (case-insensitively, modelled by matching on the lower-cased
text; every literal in the patterns is ASCII). -/
def badPattern (t : List Char) : Bool :=
  let lt := asciiLower t
  hasPat1 lt || hasPat2 lt || hasPat3 lt || hasPat4 lt || hasPat5 lt || hasPat6 lt

/-- `KeywordTagSpider.is_good_content`: strip, then reject when shorter
than 15 characters, reject on a boilerplate signature, and require at
least two alphabetic words of three or more letters. -/
def is_good_content (text : List Char) : Bool :=
  let t := pstrip text
  if t.length < 15 then false
  else if badPattern t then false
  else 2 ≤ qualWordCount t

/-- The candidate list built by `get_content_block`'s selector loop: for
each selector (in the prioritized order) the raw text of its first matched
block, if any; each is cleaned and kept when it passes the quality
filter. -/
def candidateTexts (blocks : List (Option (List Char))) : List (List Char) :=
  blocks.filterMap (fun b =>
    match b with
    | none => none
    | some raw =>
      let cleaned := clean_text raw
      if is_good_content cleaned then some cleaned else none)

/-- Python `max(candidates, key=len)`: keep the first element, replacing it
only on strictly greater length — the first longest element wins. -/
def pyMax (l : List (List Char)) : Option (List Char) :=
  match l with
  | [] => none
  | c :: rest =>
    some (rest.foldl (fun best x => if best.length < x.length then x else best) c)

/-- `KeywordTagSpider.get_content_block` (successful path): quality-passing
cleaned candidates, then the additional `len(c) > 20` filter, then the
longest; empty string when nothing remains. -/
def get_content_block (blocks : List (Option (List Char))) : List Char :=
  let cands := (candidateTexts blocks).filter (fun c => 20 < c.length)
  match pyMax cands with
  | some m => m
  | none => []

/-- `get_content_block` with its surrounding `try`/`except`: a traversal
error (`none`) yields the empty string. -/
def get_content_block_total (blocks : Option (List (Option (List Char)))) : List Char :=
  match blocks with
  | some bs => get_content_block bs
  | none => []

/-- The per-level data read by `get_css_path`: the element's tag name and
its `id` / `class` attributes (empty list = attribute absent or empty). -/
structure NodeInfo where
  tag : List Char
  idAttr : List Char
  classAttr : List Char
deriving DecidableEq

/-- Scanner for Python `str.split()`: `cur` is the reversed current word;
a word ends at whitespace, and empty words are never produced. -/
def splitWordsAux : List Char → List Char → List (List Char)
  | cur, [] => if cur.isEmpty then [] else [cur.reverse]
  | cur, c :: rest =>
    if isPySpace c then
      if cur.isEmpty then splitWordsAux [] rest
      else cur.reverse :: splitWordsAux [] rest
    else splitWordsAux (c :: cur) rest

/-- Python `str.split()`: whitespace-separated words, no empties. -/
def splitWords (cs : List Char) : List (List Char) :=
  splitWordsAux [] cs

/-- The selector emitted per level: `tag[#id][.class...]`. -/
def selectorOf (n : NodeInfo) : List Char :=
  let idStr := if n.idAttr.isEmpty then [] else '#' :: n.idAttr
  let classStr :=
    if n.classAttr.isEmpty then []
    else '.' :: List.intercalate ['.'] (splitWords n.classAttr)
  n.tag ++ idStr ++ classStr

/-- The `" > "` separator of `get_css_path`. -/
def sepGT : List Char := " > ".toList

/-- `KeywordTagSpider.get_css_path` (successful path): walk the ancestor
chain (node first) for at most 8 levels, render ancestor-to-node order
joined by `" > "`, truncate to 120 characters, and fall back to `"body"`
when the rendering is empty. -/
def get_css_path (chain : List NodeInfo) : List Char :=
  let path := (chain.take 8).map selectorOf
  let s := (List.intercalate sepGT path.reverse).take 120
  if s.isEmpty then "body".toList else s

/-- `get_css_path` with its surrounding `try`/`except`: a traversal error
(`none`) yields the fallback `'body > div'`. -/
def get_css_path_total (chain : Option (List NodeInfo)) : List Char :=
  match chain with
  | some ch => get_css_path ch
  | none => "body > div".toList

/-- A matched node as consumed by `parse_tags`: the text used for keyword
matching, the ancestor chain used by `get_css_path` (node first; `none`
models a traversal error raised inside it), and the per-selector candidate
blocks used by `get_content_block` (`none` models a traversal error). -/
structure Node where
  text : List Char
  chain : Option (List NodeInfo)
  blocks : Option (List (Option (List Char)))
deriving DecidableEq

/-- One site's accumulator: `site_contents[url]` (ordered list) and
`site_css_paths[url]` (a set, modelled as an insertion-ordered list
without duplicates). -/
structure SiteState where
  contents : List (List Char)
  cssPaths : List (List Char)
deriving DecidableEq

/-- `set.add`: insert the path unless already present. -/
def addPath (paths : List (List Char)) (p : List Char) : List (List Char) :=
  if p ∈ paths then paths else paths ++ [p]

/-- The per-node update of `parse_tags`:
`if content and content not in self.site_contents[url]:` append the content
and add the css path; otherwise do nothing. -/
def submitContent (st : SiteState) (cssPath content : List Char) : SiteState :=
  if content.isEmpty then st
  else if content ∈ st.contents then st
  else { contents := st.contents ++ [content],
         cssPaths := addPath st.cssPaths cssPath }

/-- Processing of one matched node inside `parse_tags`. -/
def processNode (st : SiteState) (n : Node) : SiteState :=
  submitContent st (get_css_path_total n.chain) (get_content_block_total n.blocks)

/-- `self.KEYWORD.lower().split()`. -/
def keywordWords (kw : List Char) : List (List Char) :=
  splitWords (asciiLower kw)

/-- The nodes matched for one word:
`response.xpath('//*[contains(translate(text(),"A..Z","a..z"), word)]')[:20]`. -/
def matchedNodes (nodes : List Node) (word : List Char) : List Node :=
  (nodes.filter (fun n => containsSub (asciiLower n.text) word)).take 20

/-- The extraction loops of `parse_tags`: for every keyword word, process
(up to 20) matched nodes in order. -/
def extract_page (kw : List Char) (nodes : List Node) (st : SiteState) : SiteState :=
  (keywordWords kw).foldl
    (fun s word => (matchedNodes nodes word).foldl processNode s) st

/-- First-match lookup in an association list, with a default
(defaultdict access). -/
def lookupD {α : Type} : List (String × α) → String → α → α
  | [], _, d => d
  | (k, v) :: rest, u, d => if k = u then v else lookupD rest u d

/-- Python dict assignment: overwrite the first matching key in place, or
append a new binding at the end (insertion order preserved). -/
def dictSet {α : Type} : List (String × α) → String → α → List (String × α)
  | [], u, v => [(u, v)]
  | (k, w) :: rest, u, v =>
    if k = u then (k, v) :: rest else (k, w) :: dictSet rest u v

/-- `self.all_sites[url]['status'] = status`: update the status field of an
existing entry (the entry always exists when `parse_tags` runs). -/
def setStatus : List (String × Nat × Option Nat) → String → Nat →
    List (String × Nat × Option Nat)
  | [], _, _ => []
  | (k, pos, s) :: rest, u, st =>
    if k = u then (k, pos, some st) :: rest
    else (k, pos, s) :: setStatus rest u st

/-- First-match lookup in `all_sites`. -/
def findSite : List (String × Nat × Option Nat) → String → Option (Nat × Option Nat)
  | [], _ => none
  | (k, pos, s) :: rest, u => if k = u then some (pos, s) else findSite rest u

/-- The spider's ambient per-run state touched by `parse_tags`. -/
structure CrawlState where
  all_sites : List (String × Nat × Option Nat)
  site_contents : List (String × List (List Char))
  site_css_paths : List (String × List (List Char))
deriving DecidableEq

/-- `KeywordTagSpider.parse_tags` for one response: record the HTTP status;
on status ≥ 400 stop; otherwise run extraction over the page's nodes and
store the site's updated content list and path set. -/
def parse_tags (cst : CrawlState) (url : String) (status : Nat)
    (kw : List Char) (nodes : List Node) : CrawlState :=
  let cst1 := { cst with all_sites := setStatus cst.all_sites url status }
  if 400 ≤ status then cst1
  else
    let st0 : SiteState :=
      ⟨lookupD cst1.site_contents url [], lookupD cst1.site_css_paths url []⟩
    let st1 := extract_page kw nodes st0
    { cst1 with
      site_contents := dictSet cst1.site_contents url st1.contents,
      site_css_paths := dictSet cst1.site_css_paths url st1.cssPaths }

/-- The state touched by `parse_cse_page`: `site_positions`, `all_sites`
and `total_sites`. -/
structure CseState where
  positions : List (String × Nat)
  all_sites : List (String × Nat × Option Nat)
  total_sites : Nat
deriving DecidableEq

/-- `result.get('link')` followed by `if url:`: a missing or empty link is
skipped. -/
def presentUrl : Option String → Option String
  | none => none
  | some u => if u = "" then none else some u

/-- The body of `parse_cse_page`'s loop for one accepted URL:
`position = total_sites + 1`; store it in `site_positions` and
`all_sites`; increment `total_sites`. -/
def cseStep (st : CseState) (u : String) : CseState :=
  let position := st.total_sites + 1
  { positions := dictSet st.positions u position,
    all_sites := dictSet st.all_sites u (position, none),
    total_sites := st.total_sites + 1 }

/-- `KeywordTagSpider.parse_cse_page` over one result list: process items
in order, breaking out as soon as `total_sites >= 10`. -/
def parse_cse_page (st : CseState) : List (Option String) → CseState
  | [] => st
  | item :: rest =>
    if 10 ≤ st.total_sites then st
    else
      match presentUrl item with
      | none => parse_cse_page st rest
      | some u => parse_cse_page (cseStep st u) rest

/-- The spider's initial search state. -/
def initCse : CseState := ⟨[], [], 0⟩

/-- Specification-side helper: assign consecutive 1-based ranks, starting
after `t` already-assigned ones. -/
def assignFrom (t : Nat) : List String → List (String × Nat)
  | [] => []
  | u :: rest => (u, t + 1) :: assignFrom (t + 1) rest

/-- One record of `content.json` as built by `save_content_json`. -/
structure ContentEntry where
  url : String
  position : Nat
  content_id : Nat
  css_path : List Char
  content : List Char
  content_length : Nat
deriving DecidableEq

/-- One record of the `save_content_json` loop:
`css_paths_list[min(i-1, len(css_paths_list)-1)] if css_paths_list else
"body"`, content truncated to 2000 characters, with `i` counted from 1. -/
def mkEntry (url : String) (pos : Nat) (ps : List (List Char)) (i : Nat)
    (c : List Char) : ContentEntry :=
  { url := url, position := pos, content_id := i,
    css_path := if ps.isEmpty then "body".toList
                else ps.getD (min (i - 1) (ps.length - 1)) [],
    content := c.take 2000, content_length := c.length }

/-- The inner `enumerate(self.site_contents[url], 1)` loop. -/
def siteEntriesGo (url : String) (pos : Nat) (ps : List (List Char)) :
    Nat → List (List Char) → List ContentEntry
  | _, [] => []
  | i, c :: rest => mkEntry url pos ps i c :: siteEntriesGo url pos ps (i + 1) rest

/-- All `content.json` records for one site. -/
def siteEntries (url : String) (pos : Nat) (cs ps : List (List Char)) :
    List ContentEntry :=
  siteEntriesGo url pos ps 1 cs

/-- `KeywordTagSpider.save_content_json`: iterate `all_sites` in insertion
order, flattening each site's content list. -/
def save_content_json : List (String × Nat × Option Nat) →
    List (String × List (List Char)) → List (String × List (List Char)) →
    List ContentEntry
  | [], _, _ => []
  | (u, pos, _) :: rest, cts, pts =>
    siteEntries u pos (lookupD cts u []) (lookupD pts u []) ++
      save_content_json rest cts pts

/-- Default entry used only to state positional-indexing facts. -/
def dfltEntry : ContentEntry := ⟨"", 0, 0, [], [], 0⟩

/-- No two adjacent whitespace characters. -/
def noTwoAdjSpaces : List Char → Bool
  | [] => true
  | [_] => true
  | a :: b :: rest => (!(isPySpace a && isPySpace b)) && noTwoAdjSpaces (b :: rest)

/-- No position of the list starts an HTML-entity match
`&[a-zA-Z0-9#]+;`. -/
def noEnt : List Char → Bool
  | [] => true
  | c :: rest => (if c = '&' then (munch rest).isNone else true) && noEnt rest

/-! ### Helper lemmas -/

theorem length_dropWhile_le (p : Char → Bool) (l : List Char) :
    (l.dropWhile p).length ≤ l.length :=
  (List.dropWhile_sublist p).length_le

theorem munch_some_length {cs r : List Char} (h : munch cs = some r) :
    r.length + 2 ≤ cs.length := by
  unfold munch at h
  split at h
  · exact Option.noConfusion h
  · next he =>
    split at h
    · next rest hd =>
      obtain rfl : rest = r := Option.some.inj h
      have hlen := congrArg List.length hd
      simp only [List.length_drop, List.length_cons] at hlen
      have hne : (cs.takeWhile isEnt).length ≠ 0 := by
        intro h0
        rw [List.length_eq_zero] at h0
        rw [h0] at he
        simp at he
      omega
    · exact Option.noConfusion h


theorem submitContent_of_mem {st : SiteState} {p c : List Char}
    (h : c ∈ st.contents) : submitContent st p c = st := by
  unfold submitContent
  by_cases he : c.isEmpty <;> simp [he, h]

theorem findSite_setStatus {m : List (String × Nat × Option Nat)}
    {u : String} {pos : Nat} {s0 : Option Nat} (st : Nat)
    (h : findSite m u = some (pos, s0)) :
    findSite (setStatus m u st) u = some (pos, some st) := by
  induction m with
  | nil => simp [findSite] at h
  | cons hd tl ih =>
    obtain ⟨k, kpos, ks⟩ := hd
    by_cases hk : k = u
    · subst hk
      simp [findSite, setStatus] at h ⊢
      simp_all
    · simp [findSite, setStatus, hk] at h ⊢
      exact ih h

theorem dictSet_fresh {α : Type} {m : List (String × α)} {u : String}
    (h : ∀ v, (u, v) ∉ m) (x : α) : dictSet m u x = m ++ [(u, x)] := by
  induction m with
  | nil => rfl
  | cons hd tl ih =>
    obtain ⟨k, w⟩ := hd
    by_cases hk : k = u
    · subst hk
      exact absurd (List.mem_cons_self _ _) (h w)
    · simp only [dictSet, hk, if_false, List.cons_append, List.cons.injEq, true_and]
      exact ih (fun v hv => h v (List.mem_cons_of_mem _ hv))

/-! ### C2 -/

/-- C2 (amended): submitting a content string already present verbatim in
the site's content list leaves the whole site state unchanged — the
content list keeps one entry and the duplicate occurrence's path is *not*
added; consequently two nodes with identical cleaned text yield one
content entry and one path entry (the first node's). -/
theorem spec_c2 :
    (∀ (st : SiteState) (p c : List Char), c ∈ st.contents →
      submitContent st p c = st) ∧
    (∀ (p1 p2 c : List Char), c.isEmpty = false →
      submitContent (submitContent ⟨[], []⟩ p1 c) p2 c =
        ⟨[c], [p1]⟩) := by
  constructor
  · exact fun st p c h => submitContent_of_mem h
  · intro p1 p2 c hc
    have h1 : submitContent ⟨[], []⟩ p1 c = ⟨[c], [p1]⟩ := by
      simp [submitContent, hc, addPath]
    rw [h1]
    exact submitContent_of_mem (by simp)

theorem spec_c2_witness :
    submitContent (submitContent ⟨[], []⟩ ("body > p".toList)
        ("a long enough content".toList)) ("body > div".toList)
        ("a long enough content".toList) = ⟨["a long enough content".toList],
        ["body > p".toList]⟩ :=
  spec_c2.2 _ _ _ (by decide)

/-- C2 counterexample: two distinct nodes with identical cleaned text —
the content list gets one entry, but the path set gets only the first
node's path, not two entries as claimed. -/
theorem spec_c2_cex :
    (submitContent (submitContent ⟨[], []⟩ ("body > p".toList)
        ("identical cleaned text".toList)) ("body > div".toList)
        ("identical cleaned text".toList)).contents =
      ["identical cleaned text".toList] ∧
    (submitContent (submitContent ⟨[], []⟩ ("body > p".toList)
        ("identical cleaned text".toList)) ("body > div".toList)
        ("identical cleaned text".toList)).cssPaths.length = 1 ∧
    ("body > div".toList ∉
      (submitContent (submitContent ⟨[], []⟩ ("body > p".toList)
        ("identical cleaned text".toList)) ("body > div".toList)
        ("identical cleaned text".toList)).cssPaths) := by
  refine ⟨?_, ?_, ?_⟩ <;> decide

/-! ### C7 -/

/-- C7: on an HTTP status ≥ 400 `parse_tags` records the status in the
site's visit record and skips extraction: the content map and path map
are untouched and the callback returns normally. -/
theorem spec_c7 (cst : CrawlState) (url : String) (status : Nat)
    (kw : List Char) (nodes : List Node) (h : 400 ≤ status) :
    (parse_tags cst url status kw nodes).site_contents = cst.site_contents ∧
    (parse_tags cst url status kw nodes).site_css_paths = cst.site_css_paths ∧
    (parse_tags cst url status kw nodes).all_sites =
      setStatus cst.all_sites url status ∧
    (∀ pos s0, findSite cst.all_sites url = some (pos, s0) →
      findSite (parse_tags cst url status kw nodes).all_sites url =
        some (pos, some status)) := by
  unfold parse_tags
  rw [if_pos h]
  refine ⟨rfl, rfl, rfl, ?_⟩
  intro pos s0 hf
  exact findSite_setStatus status hf

theorem spec_c7_witness :
    (parse_tags ⟨[("u", 1, none)], [], []⟩ "u" 404 [] []).site_contents = [] ∧
    findSite (parse_tags ⟨[("u", 1, none)], [], []⟩ "u" 404 [] []).all_sites "u" =
      some (1, some 404) := by
  have h := spec_c7 ⟨[("u", 1, none)], [], []⟩ "u" 404 [] [] (by decide)
  exact ⟨h.1, h.2.2.2 1 none (by decide)⟩

/-! ### C9 -/

/-- C9: a traversal error while computing a node's structural path yields
the fallback path string, an error while computing its content block
yields the empty content, an empty content leaves the site state
unchanged, and an erroring node never aborts processing of the other
nodes of the page. -/
theorem spec_c9 :
    get_css_path_total none = "body > div".toList ∧
    get_content_block_total none = [] ∧
    (∀ (st : SiteState) (n : Node), n.blocks = none → processNode st n = st) ∧
    (∀ (st : SiteState) (n : Node), n.chain = none →
      processNode st n =
        submitContent st ("body > div".toList) (get_content_block_total n.blocks)) ∧
    (∀ (st : SiteState) (pre post : List Node) (bad : Node),
      bad.blocks = none →
      (pre ++ bad :: post).foldl processNode st =
        (pre ++ post).foldl processNode st) := by
  have hnone : ∀ (st : SiteState) (n : Node), n.blocks = none →
      processNode st n = st := by
    intro st n hb
    unfold processNode
    rw [hb]
    rfl
  refine ⟨rfl, rfl, hnone, ?_, ?_⟩
  · intro st n hc
    unfold processNode
    rw [hc]
    rfl
  · intro st pre post bad hb
    rw [List.foldl_append, List.foldl_append]
    simp only [List.foldl_cons]
    rw [hnone _ _ hb]

theorem spec_c9_witness :
    processNode ⟨["x".toList], ["p".toList]⟩ ⟨"t".toList, none, none⟩ =
      ⟨["x".toList], ["p".toList]⟩ :=
  spec_c9.2.2.1 _ _ rfl

/-! ### C3 -/

theorem parse_cse_spec (items : List (Option String)) (st : CseState)
    (hnd : (items.filterMap presentUrl).Nodup)
    (hfresh : ∀ u, u ∈ items.filterMap presentUrl → ∀ v, (u, v) ∉ st.positions) :
    (parse_cse_page st items).positions =
      st.positions ++
        assignFrom st.total_sites
          ((items.filterMap presentUrl).take (10 - st.total_sites)) ∧
    (parse_cse_page st items).total_sites =
      st.total_sites + min (items.filterMap presentUrl).length (10 - st.total_sites) := by
  induction items generalizing st with
  | nil => simp [parse_cse_page, assignFrom]
  | cons item rest ih =>
    by_cases hcap : 10 ≤ st.total_sites
    · rw [parse_cse_page, if_pos hcap]
      have h0 : 10 - st.total_sites = 0 := by omega
      rw [h0]
      simp [assignFrom]
    · rw [parse_cse_page, if_neg hcap]
      rcases hp : presentUrl item with _ | u
      · rw [List.filterMap_cons_none hp] at hnd hfresh ⊢
        exact ih st hnd hfresh
      · rw [List.filterMap_cons_some hp] at hnd hfresh ⊢
        have hndr : (rest.filterMap presentUrl).Nodup := hnd.of_cons
        have hu : u ∉ rest.filterMap presentUrl := by
          intro hm
          exact (List.nodup_cons.mp hnd).1 hm
        have hufresh : ∀ v, (u, v) ∉ st.positions :=
          hfresh u (List.mem_cons_self _ _)
        have hset : dictSet st.positions u (st.total_sites + 1) =
            st.positions ++ [(u, st.total_sites + 1)] :=
          dictSet_fresh hufresh _
        have hfresh2 : ∀ r, r ∈ rest.filterMap presentUrl →
            ∀ v, (r, v) ∉ (cseStep st u).positions := by
          intro r hr v hv
          simp only [cseStep, hset, List.mem_append, List.mem_singleton] at hv
          rcases hv with hv | hv
          · exact hfresh r (List.mem_cons_of_mem _ hr) v hv
          · have : r = u := congrArg Prod.fst hv
            exact hu (this ▸ hr)
        have := ih (cseStep st u) hndr hfresh2
        obtain ⟨hpos, htot⟩ := this
        constructor
        · rw [hpos]
          simp only [cseStep, hset]
          have harith : 10 - st.total_sites = (10 - (st.total_sites + 1)) + 1 := by
            omega
          rw [harith, List.take_succ_cons, List.append_assoc]
          rfl
        · rw [htot]
          simp only [cseStep, List.length_cons]
          omega

/-- C3 (amended): ranks are assigned at first sighting as the 1-based
first-seen order, capped at 10 scheduled sites, and for a duplicate-free
URL sequence they are unique; however a URL seen again is *not* ignored —
it is re-ranked (its stored rank is overwritten) and counts again toward
the scheduled-site total (see the counterexample). -/
theorem spec_c3 (items : List (Option String))
    (hnd : (items.filterMap presentUrl).Nodup) :
    (parse_cse_page initCse items).positions =
      assignFrom 0 ((items.filterMap presentUrl).take 10) ∧
    (parse_cse_page initCse items).total_sites =
      min (items.filterMap presentUrl).length 10 ∧
    ((parse_cse_page initCse items).positions.map Prod.snd).Nodup := by
  have h := parse_cse_spec items initCse hnd (by intro u hu v hv; simp [initCse] at hv)
  obtain ⟨hpos, htot⟩ := h
  have hmap : ∀ (t : Nat) (l : List String),
      (assignFrom t l).map Prod.snd = List.range' (t + 1) l.length := by
    intro t l
    induction l generalizing t with
    | nil => rfl
    | cons x xs ihx =>
      simp only [assignFrom, List.map_cons, List.length_cons, ihx,
        List.range'_succ]
  refine ⟨by simpa [initCse] using hpos, by simpa [initCse] using htot, ?_⟩
  rw [hpos]
  simp only [initCse, List.nil_append, hmap]
  exact List.nodup_range' _ _ 1 (by norm_num)

theorem spec_c3_witness :
    (parse_cse_page initCse [some "a", none, some "b"]).positions =
      assignFrom 0 (([some "a", none, some "b"].filterMap presentUrl).take 10) ∧
    (parse_cse_page initCse [some "a", none, some "b"]).total_sites =
      min ([some "a", none, some "b"].filterMap presentUrl).length 10 ∧
    ((parse_cse_page initCse [some "a", none, some "b"]).positions.map
      Prod.snd).Nodup :=
  spec_c3 [some "a", none, some "b"] (by decide)

/-- C3 counterexample: the same URL returned twice is *not* ignored — its
rank is overwritten from 1 to 2 and it is counted twice toward the
scheduled-site total. -/
theorem spec_c3_cex :
    (parse_cse_page initCse [some "u", some "u"]).positions = [("u", 2)] ∧
    (parse_cse_page initCse [some "u", some "u"]).total_sites = 2 := by
  refine ⟨?_, ?_⟩ <;> rfl

/-! ### C8 -/

theorem siteEntriesGo_length (url : String) (pos : Nat) (ps : List (List Char)) :
    ∀ (cs : List (List Char)) (i : Nat),
      (siteEntriesGo url pos ps i cs).length = cs.length := by
  intro cs
  induction cs with
  | nil => intro i; rfl
  | cons c rest ih =>
    intro i
    simp only [siteEntriesGo, List.length_cons, ih]

theorem siteEntriesGo_getD (url : String) (pos : Nat) (ps : List (List Char)) :
    ∀ (cs : List (List Char)) (i j : Nat), j < cs.length →
      (siteEntriesGo url pos ps i cs).getD j dfltEntry =
        mkEntry url pos ps (i + j) (cs.getD j []) := by
  intro cs
  induction cs with
  | nil => intro i j hj; simp at hj
  | cons c rest ih =>
    intro i j hj
    cases j with
    | zero => simp [siteEntriesGo]
    | succ j' =>
      simp only [siteEntriesGo, List.getD_cons_succ]
      rw [ih (i + 1) j' (by simp at hj; omega)]
      congr 1
      omega

/-- C8: in the flattened `content.json` output each site contributes one
record per content item; the `i`-th content item is paired positionally
with the `i`-th path of the path set's iteration order, the index is
clamped to the last path when the path set is shorter than the content
list, and an empty path set falls back to `"body"`. -/
theorem spec_c8 :
    (∀ (sites : List (String × Nat × Option Nat))
        (cts pts : List (String × List (List Char))),
      save_content_json sites cts pts =
        sites.bind (fun s =>
          siteEntries s.1 s.2.1 (lookupD cts s.1 []) (lookupD pts s.1 []))) ∧
    (∀ (url : String) (pos : Nat) (cs ps : List (List Char)),
      (siteEntries url pos cs ps).length = cs.length ∧
      (∀ j, j < cs.length →
        ((siteEntries url pos cs ps).getD j dfltEntry).content =
          (cs.getD j []).take 2000 ∧
        ((siteEntries url pos cs ps).getD j dfltEntry).content_id = j + 1 ∧
        (ps = [] →
          ((siteEntries url pos cs ps).getD j dfltEntry).css_path =
            "body".toList) ∧
        (j < ps.length →
          ((siteEntries url pos cs ps).getD j dfltEntry).css_path =
            ps.getD j []) ∧
        (ps ≠ [] → ps.length ≤ j →
          ((siteEntries url pos cs ps).getD j dfltEntry).css_path =
            ps.getD (ps.length - 1) []))) := by
  constructor
  · intro sites cts pts
    induction sites with
    | nil => rfl
    | cons s rest ih =>
      obtain ⟨u, pos, st⟩ := s
      simp only [save_content_json, List.cons_bind, ih]
  · intro url pos cs ps
    refine ⟨siteEntriesGo_length url pos ps cs 1, ?_⟩
    intro j hj
    have hget := siteEntriesGo_getD url pos ps cs 1 j hj
    rw [siteEntries, hget]
    have h1j : 1 + j = j + 1 := by omega
    rw [h1j]
    refine ⟨rfl, rfl, ?_, ?_, ?_⟩
    · intro hps
      subst hps
      rfl
    · intro hp
      simp only [mkEntry]
      have hne : ps.isEmpty = false := by
        cases ps
        · simp at hp
        · rfl
      rw [hne]
      simp only [Bool.false_eq_true, if_false, Nat.add_sub_cancel]
      rw [Nat.min_eq_left (by omega)]
    · intro hne hlen
      simp only [mkEntry]
      have hne2 : ps.isEmpty = false := by
        cases ps
        · exact absurd rfl hne
        · rfl
      rw [hne2]
      simp only [Bool.false_eq_true, if_false, Nat.add_sub_cancel]
      rw [Nat.min_eq_right (by omega)]

theorem spec_c8_witness :
    ((siteEntries "u" 1 ["aa".toList, "bb".toList] ["pp".toList]).getD 1
      dfltEntry).css_path = (["pp".toList] : List (List Char)).getD 0 [] := by
  have h := (spec_c8.2 "u" 1 ["aa".toList, "bb".toList] ["pp".toList]).2 1
    (by decide)
  simpa using h.2.2.2.2 (by decide) (by decide)

/-! ### C6 -/

theorem charToNat_ofNat {n : Nat} (h : n.isValidChar) :
    (Char.ofNat n).toNat = n := by
  unfold Char.ofNat
  rw [dif_pos h]
  rfl

theorem lowerChar_not_upper (c : Char) :
    ¬(65 ≤ (lowerChar c).toNat ∧ (lowerChar c).toNat ≤ 90) := by
  unfold lowerChar
  by_cases h : (65 ≤ c.toNat && c.toNat ≤ 90) = true
  · rw [if_pos h]
    simp only [Bool.and_eq_true, decide_eq_true_eq] at h
    have hv : (c.toNat + 32).isValidChar := Or.inl (by omega)
    rw [charToNat_ofNat hv]
    omega
  · rw [if_neg h]
    simp only [Bool.and_eq_true, decide_eq_true_eq, not_and, not_le] at h
    intro hc
    exact absurd (h hc.1) (by omega)

theorem splitWordsAux_chars (l : List Char) :
    ∀ (cur : List Char), (∀ c, c ∈ cur → isPySpace c = false) →
      ∀ w, w ∈ splitWordsAux cur l →
        w ≠ [] ∧ ∀ c, c ∈ w → isPySpace c = false ∧ (c ∈ cur ∨ c ∈ l) := by
  induction l with
  | nil =>
    intro cur hcur w hw
    cases cur with
    | nil => simp [splitWordsAux] at hw
    | cons a as =>
      simp only [splitWordsAux, List.isEmpty_cons, Bool.false_eq_true,
        if_false, List.mem_singleton] at hw
      subst hw
      refine ⟨by simp, ?_⟩
      intro c hc
      rw [List.mem_reverse] at hc
      exact ⟨hcur c hc, Or.inl hc⟩
  | cons x rest ih =>
    intro cur hcur w hw
    unfold splitWordsAux at hw
    by_cases hx : isPySpace x = true
    · rw [if_pos hx] at hw
      by_cases hc : cur.isEmpty = true
      · rw [if_pos hc] at hw
        have hr := ih [] (by simp) w hw
        refine ⟨hr.1, fun c hcw => ⟨(hr.2 c hcw).1, ?_⟩⟩
        rcases (hr.2 c hcw).2 with h | h
        · simp at h
        · exact Or.inr (List.mem_cons_of_mem _ h)
      · rw [if_neg hc] at hw
        rcases List.mem_cons.mp hw with rfl | hw2
        · refine ⟨?_, ?_⟩
          · cases cur with
            | nil => simp at hc
            | cons a as => simp
          · intro c hcw
            rw [List.mem_reverse] at hcw
            exact ⟨hcur c hcw, Or.inl hcw⟩
        · have hr := ih [] (by simp) w hw2
          refine ⟨hr.1, fun c hcw => ⟨(hr.2 c hcw).1, ?_⟩⟩
          rcases (hr.2 c hcw).2 with h | h
          · simp at h
          · exact Or.inr (List.mem_cons_of_mem _ h)
    · rw [if_neg hx] at hw
      have hcur2 : ∀ c, c ∈ x :: cur → isPySpace c = false := by
        intro c hc
        rcases List.mem_cons.mp hc with rfl | h
        · simpa using hx
        · exact hcur c h
      have hr := ih (x :: cur) hcur2 w hw
      refine ⟨hr.1, fun c hcw => ⟨(hr.2 c hcw).1, ?_⟩⟩
      rcases (hr.2 c hcw).2 with h | h
      · rcases List.mem_cons.mp h with rfl | h2
        · exact Or.inr (List.mem_cons_self _ _)
        · exact Or.inl h2
      · exact Or.inr (List.mem_cons_of_mem _ h)

theorem splitWords_chars (s : List Char) :
    ∀ w, w ∈ splitWords s →
      w ≠ [] ∧ ∀ c, c ∈ w → isPySpace c = false ∧ c ∈ s := by
  intro w hw
  have h := splitWordsAux_chars s [] (by simp) w hw
  refine ⟨h.1, fun c hc => ⟨(h.2 c hc).1, ?_⟩⟩
  rcases (h.2 c hc).2 with h2 | h2
  · simp at h2
  · exact h2

/-- C6: the keyword is split into lowercase whitespace-free words; a node
is matched for a word exactly when its ASCII-lowered text contains the
word as a plain substring — not token-bounded, so "analysis" also matches
"Analysist" — and at most 20 matched nodes are examined per word. -/
theorem spec_c6 (kw : List Char) :
    (∀ w, w ∈ keywordWords kw → w ≠ [] ∧
      ∀ c, c ∈ w → isPySpace c = false ∧ ¬(65 ≤ c.toNat ∧ c.toNat ≤ 90)) ∧
    (∀ (nodes : List Node) (word : List Char),
      (matchedNodes nodes word).length ≤ 20 ∧
      (∀ n, n ∈ matchedNodes nodes word →
        n ∈ nodes ∧ containsSub (asciiLower n.text) word = true) ∧
      ((nodes.filter (fun n => containsSub (asciiLower n.text) word)).length ≤ 20 →
        ∀ n, n ∈ nodes → containsSub (asciiLower n.text) word = true →
          n ∈ matchedNodes nodes word)) ∧
    containsSub (asciiLower ("Analysist".toList)) ("analysis".toList) = true := by
  refine ⟨?_, ?_, by decide⟩
  · intro w hw
    have hs := splitWords_chars (asciiLower kw) w hw
    refine ⟨hs.1, fun c hc => ⟨(hs.2 c hc).1, ?_⟩⟩
    have hmem : c ∈ asciiLower kw := (hs.2 c hc).2
    obtain ⟨b, _, rfl⟩ := List.mem_map.mp hmem
    exact lowerChar_not_upper b
  · intro nodes word
    refine ⟨List.length_take_le _ _, ?_, ?_⟩
    · intro n hn
      have h1 := List.mem_of_mem_take hn
      exact ⟨(List.mem_filter.mp h1).1, (List.mem_filter.mp h1).2⟩
    · intro h20 n hn hc
      unfold matchedNodes
      rw [List.take_of_length_le h20]
      exact List.mem_filter.mpr ⟨hn, hc⟩

theorem spec_c6_witness :
    isPySpace 's' = false ∧ ¬(65 ≤ 's'.toNat ∧ 's'.toNat ≤ 90) :=
  ((spec_c6 ("Solar Panel".toList)).1 ("solar".toList) (by decide)).2 's'
    (by decide)

/-! ### C4 -/

theorem pyMax_foldl_spec (rest : List (List Char)) :
    ∀ best : List Char,
      (rest.foldl (fun b x => if b.length < x.length then x else b) best = best ∧
        ∀ c, c ∈ rest → c.length ≤ best.length) ∨
      (∃ pre post,
        rest = pre ++
          (rest.foldl (fun b x => if b.length < x.length then x else b) best) :: post ∧
        best.length <
          (rest.foldl (fun b x => if b.length < x.length then x else b) best).length ∧
        (∀ c, c ∈ pre →
          c.length <
            (rest.foldl (fun b x => if b.length < x.length then x else b) best).length) ∧
        (∀ c, c ∈ post →
          c.length ≤
            (rest.foldl (fun b x => if b.length < x.length then x else b) best).length)) := by
  induction rest with
  | nil =>
    intro best
    exact Or.inl ⟨rfl, by simp⟩
  | cons x rs ih =>
    intro best
    simp only [List.foldl_cons]
    by_cases hx : best.length < x.length
    · rw [if_pos hx]
      rcases ih x with ⟨heq, hle⟩ | ⟨pre, post, hdec, hlt, hpre, hpost⟩
      · refine Or.inr ⟨[], rs, ?_, ?_, by simp, ?_⟩
        · rw [heq]; rfl
        · rw [heq]; exact hx
        · rw [heq]; exact hle
      · refine Or.inr ⟨x :: pre, post, ?_, ?_, ?_, hpost⟩
        · conv_lhs => rw [hdec]
          rfl
        · omega
        · intro c hc
          rcases List.mem_cons.mp hc with rfl | h2
          · exact hlt
          · exact hpre c h2
    · rw [if_neg hx]
      rcases ih best with ⟨heq, hle⟩ | ⟨pre, post, hdec, hlt, hpre, hpost⟩
      · refine Or.inl ⟨heq, ?_⟩
        intro c hc
        rcases List.mem_cons.mp hc with rfl | h2
        · omega
        · exact hle c h2
      · refine Or.inr ⟨x :: pre, post, ?_, hlt, ?_, hpost⟩
        · conv_lhs => rw [hdec]
          rfl
        · intro c hc
          rcases List.mem_cons.mp hc with rfl | h2
          · omega
          · exact hpre c h2

/-- C4 (amended): among the candidate blocks that pass the quality filter
*and additionally have cleaned length greater than 20*, content-block
selection returns the longest, ties broken by encounter order (everything
before the chosen block is strictly shorter); if no candidate survives,
the node yields no content. -/
theorem spec_c4 (blocks : List (Option (List Char))) :
    ((candidateTexts blocks).filter (fun c => 20 < c.length) = [] →
      get_content_block blocks = []) ∧
    ((candidateTexts blocks).filter (fun c => 20 < c.length) ≠ [] →
      ∃ pre post,
        (candidateTexts blocks).filter (fun c => 20 < c.length) =
          pre ++ get_content_block blocks :: post ∧
        (∀ c, c ∈ pre → c.length < (get_content_block blocks).length) ∧
        (∀ c, c ∈ (candidateTexts blocks).filter (fun c => 20 < c.length) →
          c.length ≤ (get_content_block blocks).length)) := by
  constructor
  · intro h
    unfold get_content_block
    rw [h]
    rfl
  · intro hne
    rcases hcs : (candidateTexts blocks).filter (fun c => 20 < c.length) with
      _ | ⟨c, rest⟩
    · exact absurd hcs hne
    · have hgcb : get_content_block blocks =
          rest.foldl (fun b x => if b.length < x.length then x else b) c := by
        unfold get_content_block
        rw [hcs]
        rfl
      rw [hcs, hgcb]
      rcases pyMax_foldl_spec rest c with ⟨heq, hle⟩ | ⟨pre, post, hdec, hlt, hpre, hpost⟩
      · refine ⟨[], rest, ?_, by simp, ?_⟩
        · rw [heq]
          rfl
        · intro d hd
          rw [heq]
          rcases List.mem_cons.mp hd with rfl | h2
          · exact le_refl _
          · exact hle d h2
      · refine ⟨c :: pre, post, ?_, ?_, ?_⟩
        · conv_lhs => rw [hdec]
          rfl
        · intro d hd
          rcases List.mem_cons.mp hd with rfl | h2
          · exact hlt
          · exact hpre d h2
        · intro d hd
          rw [hdec] at hd
          rcases List.mem_cons.mp hd with rfl | h2
          · omega
          · rcases List.mem_append.mp h2 with h3 | h3
            · exact le_of_lt (hpre d h3)
            · rcases List.mem_cons.mp h3 with rfl | h4
              · exact le_refl _
              · exact hpost d h4

theorem spec_c4_witness :
    ∃ pre post,
      (candidateTexts [some ("a sufficiently long block here".toList)]).filter
        (fun c => 20 < c.length) =
        pre ++ get_content_block [some ("a sufficiently long block here".toList)] ::
          post ∧
      (∀ c, c ∈ pre →
        c.length <
          (get_content_block [some ("a sufficiently long block here".toList)]).length) ∧
      (∀ c, c ∈ (candidateTexts
            [some ("a sufficiently long block here".toList)]).filter
          (fun c => 20 < c.length) →
        c.length ≤
          (get_content_block [some ("a sufficiently long block here".toList)]).length) :=
  (spec_c4 [some ("a sufficiently long block here".toList)]).2 (by decide)

/-- C4 counterexample: a node whose only candidate block cleans to the
15-character text "hello world abc" — it passes the quality filter, yet
selection returns the empty string rather than the (longest) passing
candidate, because of the additional `len(c) > 20` filter. -/
theorem spec_c4_cex :
    candidateTexts [some ("hello world abc".toList)] =
      ["hello world abc".toList] ∧
    is_good_content ("hello world abc".toList) = true ∧
    get_content_block [some ("hello world abc".toList)] = [] := by
  refine ⟨?_, ?_, ?_⟩ <;> decide

/-! ### C1 -/

theorem pstrip_length_le (cs : List Char) : (pstrip cs).length ≤ cs.length := by
  unfold pstrip
  calc (((cs.dropWhile isPySpace).reverse.dropWhile isPySpace).reverse).length
      = ((cs.dropWhile isPySpace).reverse.dropWhile isPySpace).length :=
        List.length_reverse _
    _ ≤ (cs.dropWhile isPySpace).reverse.length := length_dropWhile_le _ _
    _ = (cs.dropWhile isPySpace).length := List.length_reverse _
    _ ≤ cs.length := length_dropWhile_le _ _

/-- C1: the quality filter rejects every block whose length is at most 14;
a cleaned (already-stripped) block of length exactly 15 with at least two
alphabetic words of 3+ letters and no boilerplate signature passes the
filter, and any selector block cleaning to it is placed on the candidate
list by content-block selection; a cleaned block with exactly one
qualifying word is rejected regardless of length. -/
theorem spec_c1 (t : List Char) :
    (t.length ≤ 14 → is_good_content t = false) ∧
    (t.length = 15 → pstrip t = t → badPattern t = false →
      2 ≤ qualWordCount t →
      is_good_content t = true ∧
      ∀ (blocks : List (Option (List Char))) (raw : List Char),
        some raw ∈ blocks → clean_text raw = t → t ∈ candidateTexts blocks) ∧
    (pstrip t = t → qualWordCount t = 1 → is_good_content t = false) := by
  refine ⟨?_, ?_, ?_⟩
  · intro hlen
    have hp := pstrip_length_le t
    simp only [is_good_content]
    rw [if_pos (by omega)]
  · intro h15 hstrip hbad hq
    have hgood : is_good_content t = true := by
      simp only [is_good_content]
      rw [hstrip, h15]
      rw [if_neg (by omega), hbad]
      simp only [Bool.false_eq_true, if_false]
      exact decide_eq_true hq
    refine ⟨hgood, ?_⟩
    intro blocks raw hb hcl
    unfold candidateTexts
    refine List.mem_filterMap.mpr ⟨some raw, hb, ?_⟩
    simp only [hcl, hgood, if_true]
  · intro hstrip hq
    simp only [is_good_content]
    rw [hstrip, hq]
    by_cases hlen : t.length < 15
    · rw [if_pos hlen]
    · rw [if_neg hlen]
      by_cases hbp : badPattern t = true
      · rw [hbp]
        rfl
      · rw [Bool.not_eq_true] at hbp
        rw [hbp]
        rfl

theorem spec_c1_witness :
    is_good_content ("hello world abc".toList) = true ∧
    "hello world abc".toList ∈
      candidateTexts [some ("hello world abc".toList)] := by
  have h := (spec_c1 ("hello world abc".toList)).2.1 (by decide) (by decide)
    (by decide) (by decide)
  exact ⟨h.1, h.2 [some ("hello world abc".toList)]
    ("hello world abc".toList) (by simp) (by decide)⟩

/-! ### C5 -/

/-- C5 (amended): the structural path walks the ancestor chain emitting
`tag[#id][.class...]` per level for at most 8 levels, renders
ancestor-to-node order joined by `" > "`, truncates the rendering to 120
characters, and substitutes the synthetic root segment `"body"` only when
the rendering is empty — a nonempty path is *not* prefixed with a root
segment. -/
theorem spec_c5 (chain : List NodeInfo) :
    (get_css_path chain).length ≤ 120 ∧
    get_css_path chain = get_css_path (chain.take 8) ∧
    get_css_path chain ≠ [] ∧
    get_css_path [] = "body".toList ∧
    (List.intercalate sepGT ((chain.take 8).map selectorOf).reverse ≠ [] →
      get_css_path chain =
        (List.intercalate sepGT ((chain.take 8).map selectorOf).reverse).take 120) ∧
    (List.intercalate sepGT ((chain.take 8).map selectorOf).reverse = [] →
      get_css_path chain = "body".toList) := by
  refine ⟨?_, ?_, ?_, by decide, ?_, ?_⟩
  · simp only [get_css_path]
    by_cases h :
        ((List.intercalate sepGT ((chain.take 8).map selectorOf).reverse).take
          120).isEmpty = true
    · rw [if_pos h]
      decide
    · rw [if_neg h]
      exact List.length_take_le _ _
  · simp only [get_css_path, List.take_take, Nat.min_self]
  · simp only [get_css_path]
    by_cases h :
        ((List.intercalate sepGT ((chain.take 8).map selectorOf).reverse).take
          120).isEmpty = true
    · rw [if_pos h]
      decide
    · rw [if_neg h]
      intro hnil
      rw [hnil] at h
      exact h rfl
  · intro hne
    simp only [get_css_path]
    rw [if_neg ?hside]
    case hside =>
      intro hemp
      rw [List.isEmpty_eq_true, List.take_eq_nil_iff] at hemp
      rcases hemp with h | h
      · first
        | exact hne h
        | omega
      · first
        | exact hne h
        | omega
  · intro hnil
    simp only [get_css_path]
    rw [hnil]
    rfl

theorem spec_c5_witness :
    (get_css_path [⟨"p".toList, "x".toList, "main big".toList⟩,
      ⟨"div".toList, [], []⟩]).length ≤ 120 ∧
    get_css_path [⟨"p".toList, "x".toList, "main big".toList⟩,
      ⟨"div".toList, [], []⟩] =
      (List.intercalate sepGT
        (([⟨"p".toList, "x".toList, "main big".toList⟩,
          ⟨"div".toList, [], []⟩].take 8).map selectorOf).reverse).take 120 := by
  have h := spec_c5 [⟨"p".toList, "x".toList, "main big".toList⟩,
    ⟨"div".toList, [], []⟩]
  exact ⟨h.1, h.2.2.2.2.1 (by decide)⟩

/-- C5 counterexample: a single `p` node renders the path `"p"`, which
does not start at the document root, and no synthetic root segment is
prefixed to it. -/
theorem spec_c5_cex :
    get_css_path [⟨"p".toList, [], []⟩] = "p".toList ∧
    ("body".toList).isPrefixOf (get_css_path [⟨"p".toList, [], []⟩]) = false := by
  refine ⟨?_, ?_⟩ <;> decide

/-! ### C10 -/

theorem drop_takeWhile_length (p : Char → Bool) :
    ∀ l : List Char, l.drop (l.takeWhile p).length = l.dropWhile p := by
  intro l
  induction l with
  | nil => rfl
  | cons c rest ih =>
    by_cases hc : p c = true
    · rw [List.takeWhile_cons, List.dropWhile_cons, if_pos hc, if_pos hc,
        List.length_cons, List.drop_succ_cons]
      exact ih
    · rw [List.takeWhile_cons, List.dropWhile_cons, if_neg hc, if_neg hc]
      rfl

theorem munch_eq_dropWhile (z : List Char) :
    munch z =
      if (z.takeWhile isEnt).isEmpty then none
      else
        match z.dropWhile isEnt with
        | ';' :: rest => some rest
        | _ => none := by
  unfold munch
  rw [drop_takeWhile_length]

theorem munch_none_of_head {l : List Char}
    (h : l = [] ∨ ∃ x xs, l = x :: xs ∧ isEnt x = false) : munch l = none := by
  rcases h with rfl | ⟨x, xs, rfl, hx⟩
  · rfl
  · unfold munch
    rw [if_pos]
    simp [List.takeWhile_cons, hx]

theorem ent_not_space {c : Char} (h : isEnt c = true) : isPySpace c = false := by
  simp only [isEnt, Bool.or_eq_true, Bool.and_eq_true, decide_eq_true_eq] at h
  rw [← Bool.not_eq_true]
  intro hsp
  simp only [isPySpace, Bool.or_eq_true, Bool.and_eq_true, decide_eq_true_eq] at hsp
  omega

theorem ent_not_ctrl {c : Char} (h : isEnt c = true) : isCtrl c = false := by
  simp only [isEnt, Bool.or_eq_true, Bool.and_eq_true, decide_eq_true_eq] at h
  rw [← Bool.not_eq_true]
  intro hct
  simp only [isCtrl, Bool.or_eq_true, Bool.and_eq_true, decide_eq_true_eq] at hct
  omega

theorem ent_ne_amp {c : Char} (h : isEnt c = true) : c ≠ '&' := by
  intro hc
  rw [hc] at h
  exact absurd h (by decide)

theorem ent_ne_semi_of {c : Char} (h : isEnt c = true) : c ≠ ';' := by
  intro hc
  rw [hc] at h
  exact absurd h (by decide)

/-! Membership lemmas: every output character of the pipeline is an input
character or a space. -/

theorem munch_some_subset {cs r : List Char} (h : munch cs = some r) :
    ∀ c, c ∈ r → c ∈ cs := by
  rw [munch_eq_dropWhile] at h
  split at h
  · exact Option.noConfusion h
  · split at h
    · next rest hd =>
      obtain rfl : rest = r := Option.some.inj h
      intro c hc
      have h1 : c ∈ cs.dropWhile isEnt := by
        rw [hd]
        exact List.mem_cons_of_mem _ hc
      exact List.dropWhile_subset _ h1
    · exact Option.noConfusion h

theorem mem_sub1F : ∀ (fuel : Nat) (cs : List Char) (c : Char),
    c ∈ sub1F fuel cs → c ∈ cs ∨ c = ' ' := by
  intro fuel
  induction fuel with
  | zero => intro cs c hc; exact Or.inl hc
  | succ f ih =>
    intro cs c hc
    cases cs with
    | nil => simp [sub1F] at hc
    | cons d rest =>
      unfold sub1F at hc
      by_cases hd : d = '&'
      · rw [if_pos hd] at hc
        rcases hm : munch rest with _ | rest2 <;> rw [hm] at hc
        · rcases List.mem_cons.mp hc with rfl | h2
          · exact Or.inl (List.mem_cons_self _ _)
          · rcases ih rest c h2 with h3 | h3
            · exact Or.inl (List.mem_cons_of_mem _ h3)
            · exact Or.inr h3
        · rcases List.mem_cons.mp hc with rfl | h2
          · exact Or.inr rfl
          · rcases ih rest2 c h2 with h3 | h3
            · exact Or.inl (List.mem_cons_of_mem _ (munch_some_subset hm c h3))
            · exact Or.inr h3
      · rw [if_neg hd] at hc
        rcases List.mem_cons.mp hc with rfl | h2
        · exact Or.inl (List.mem_cons_self _ _)
        · rcases ih rest c h2 with h3 | h3
          · exact Or.inl (List.mem_cons_of_mem _ h3)
          · exact Or.inr h3

theorem mem_sub2_not_ctrl {l : List Char} {c : Char} (h : c ∈ sub2 l) :
    isCtrl c = false := by
  unfold sub2 at h
  obtain ⟨b, _, rfl⟩ := List.mem_map.mp h
  by_cases hb : isCtrl b = true
  · rw [if_pos hb]
    decide
  · rw [if_neg hb]
    exact Bool.not_eq_true _ |>.mp hb

theorem mem_pstrip {l : List Char} {c : Char} (h : c ∈ pstrip l) : c ∈ l := by
  unfold pstrip at h
  rw [List.mem_reverse] at h
  have h1 := List.dropWhile_subset _ h
  rw [List.mem_reverse] at h1
  exact List.dropWhile_subset _ h1

theorem mem_collapseAux : ∀ (l : List Char) (b : Bool) (c : Char),
    c ∈ collapseAux b l → c ∈ l ∨ c = ' ' := by
  intro l
  induction l with
  | nil => intro b c hc; simp [collapseAux] at hc
  | cons d rest ih =>
    intro b c hc
    unfold collapseAux at hc
    by_cases hd : isPySpace d = true
    · rw [if_pos hd] at hc
      cases b with
      | true =>
        rcases ih true c hc with h | h
        · exact Or.inl (List.mem_cons_of_mem _ h)
        · exact Or.inr h
      | false =>
        rcases List.mem_cons.mp hc with rfl | h2
        · exact Or.inr rfl
        · rcases ih true c h2 with h | h
          · exact Or.inl (List.mem_cons_of_mem _ h)
          · exact Or.inr h
    · rw [if_neg hd] at hc
      rcases List.mem_cons.mp hc with rfl | h2
      · exact Or.inl (List.mem_cons_self _ _)
      · rcases ih false c h2 with h | h
        · exact Or.inl (List.mem_cons_of_mem _ h)
        · exact Or.inr h

theorem space_mem_collapseAux : ∀ (l : List Char) (b : Bool) (c : Char),
    c ∈ collapseAux b l → isPySpace c = true → c = ' ' := by
  intro l
  induction l with
  | nil => intro b c hc; simp [collapseAux] at hc
  | cons d rest ih =>
    intro b c hc hsp
    unfold collapseAux at hc
    by_cases hd : isPySpace d = true
    · rw [if_pos hd] at hc
      cases b with
      | true => exact ih true c hc hsp
      | false =>
        rcases List.mem_cons.mp hc with rfl | h2
        · rfl
        · exact ih true c h2 hsp
    · rw [if_neg hd] at hc
      rcases List.mem_cons.mp hc with rfl | h2
      · rw [hsp] at hd
        exact absurd rfl hd
      · exact ih false c h2 hsp

/-! Adjacency of whitespace in the collapsed output. -/

theorem noTwo_cons {a : Char} {X : List Char}
    (hhead : ∀ d, X.head? = some d → (isPySpace a && isPySpace d) = false)
    (hX : noTwoAdjSpaces X = true) : noTwoAdjSpaces (a :: X) = true := by
  cases X with
  | nil => rfl
  | cons d rest =>
    unfold noTwoAdjSpaces
    rw [hhead d rfl, hX]
    rfl

theorem noTwo_tail {a : Char} {X : List Char}
    (h : noTwoAdjSpaces (a :: X) = true) : noTwoAdjSpaces X = true := by
  cases X with
  | nil => rfl
  | cons d rest =>
    unfold noTwoAdjSpaces at h
    simp only [Bool.and_eq_true] at h
    exact h.2

theorem noTwo_head_pair {a : Char} {X : List Char}
    (h : noTwoAdjSpaces (a :: X) = true) :
    ∀ d, X.head? = some d → (isPySpace a && isPySpace d) = false := by
  intro d hd
  cases X with
  | nil => simp at hd
  | cons e rest =>
    obtain rfl : e = d := by simpa using hd
    unfold noTwoAdjSpaces at h
    simp only [Bool.and_eq_true] at h
    have h1 := h.1
    cases hq : (isPySpace a && isPySpace e) with
    | false => rfl
    | true =>
      rw [hq] at h1
      exact absurd h1 (by decide)

theorem collapseAux_true_head : ∀ (l : List Char) (c : Char),
    (collapseAux true l).head? = some c → isPySpace c = false := by
  intro l
  induction l with
  | nil => intro c hc; simp [collapseAux] at hc
  | cons d rest ih =>
    intro c hc
    unfold collapseAux at hc
    by_cases hd : isPySpace d = true
    · rw [if_pos hd] at hc
      exact ih c hc
    · rw [if_neg hd] at hc
      obtain rfl : d = c := by simpa using hc
      simpa using hd

theorem noTwo_collapseAux : ∀ (l : List Char) (b : Bool),
    noTwoAdjSpaces (collapseAux b l) = true := by
  intro l
  induction l with
  | nil => intro b; rfl
  | cons d rest ih =>
    intro b
    unfold collapseAux
    by_cases hd : isPySpace d = true
    · rw [if_pos hd]
      cases b with
      | true => exact ih true
      | false =>
        refine noTwo_cons ?_ (ih true)
        intro e he
        have h1 := collapseAux_true_head rest e he
        rw [h1]
        exact Bool.and_false _
    · rw [if_neg hd]
      refine noTwo_cons ?_ (ih false)
      intro e he
      simp only [Bool.not_eq_true] at hd
      rw [hd]
      exact Bool.false_and _

/-! Ends of the collapsed output. -/

theorem getLast?_cons_ne {a : Char} {X : List Char} (h : X ≠ []) :
    (a :: X).getLast? = X.getLast? := by
  cases X with
  | nil => exact absurd rfl h
  | cons e r => exact List.getLast?_cons_cons

theorem collapseAux_ne_nil : ∀ (l : List Char) (b : Bool) (d : Char),
    d ∈ l → isPySpace d = false → collapseAux b l ≠ [] := by
  intro l
  induction l with
  | nil => intro b d hd; simp at hd
  | cons x rest ih =>
    intro b d hd hns
    unfold collapseAux
    by_cases hx : isPySpace x = true
    · rw [if_pos hx]
      have hdr : d ∈ rest := by
        rcases List.mem_cons.mp hd with rfl | h2
        · rw [hx] at hns
          exact absurd hns (by decide)
        · exact h2
      cases b with
      | true => exact ih true d hdr hns
      | false => simp
    · rw [if_neg hx]
      simp

theorem collapseAux_last : ∀ (l : List Char) (b : Bool) (c : Char),
    (∀ d, l.getLast? = some d → isPySpace d = false) →
    (collapseAux b l).getLast? = some c → isPySpace c = false := by
  intro l
  induction l with
  | nil => intro b c _ hc; simp [collapseAux] at hc
  | cons x rest ih =>
    intro b c hlast hc
    cases rest with
    | nil =>
      have hx : isPySpace x = false := hlast x rfl
      unfold collapseAux at hc
      rw [if_neg (by rw [hx]; exact Bool.false_ne_true)] at hc
      have : collapseAux false ([] : List Char) = [] := rfl
      rw [this] at hc
      obtain rfl : x = c := by simpa using hc
      exact hx
    | cons y rest2 =>
      have hlast2 : ∀ d, (y :: rest2).getLast? = some d → isPySpace d = false := by
        intro d hd
        refine hlast d ?_
        rw [getLast?_cons_ne (by simp)]
        exact hd
      obtain ⟨dl, hdl⟩ : ∃ d, (y :: rest2).getLast? = some d :=
        ⟨(y :: rest2).getLast (by simp), List.getLast?_eq_getLast _ _⟩
      have hdl_ns := hlast2 dl hdl
      have hdl_mem : dl ∈ y :: rest2 := List.mem_of_mem_getLast? hdl
      unfold collapseAux at hc
      by_cases hx : isPySpace x = true
      · rw [if_pos hx] at hc
        cases b with
        | true =>
          rw [if_pos rfl] at hc
          exact ih true c hlast2 hc
        | false =>
          rw [if_neg (by decide)] at hc
          have hne := collapseAux_ne_nil (y :: rest2) true dl hdl_mem hdl_ns
          rw [getLast?_cons_ne hne] at hc
          exact ih true c hlast2 hc
      · rw [if_neg hx] at hc
        have hne := collapseAux_ne_nil (y :: rest2) false dl hdl_mem hdl_ns
        rw [getLast?_cons_ne hne] at hc
        exact ih false c hlast2 hc

/-! Ends of the stripped string. -/

theorem head_dropWhile_false {p : Char → Bool} : ∀ {l : List Char} {c : Char},
    (l.dropWhile p).head? = some c → p c = false := by
  intro l
  induction l with
  | nil => intro c hc; simp at hc
  | cons d rest ih =>
    intro c hc
    rw [List.dropWhile_cons] at hc
    by_cases hd : p d = true
    · rw [if_pos hd] at hc
      exact ih hc
    · rw [if_neg hd] at hc
      obtain rfl : d = c := by simpa using hc
      simpa using hd

theorem pstrip_prefix_dropWhile (l : List Char) :
    pstrip l <+: l.dropWhile isPySpace := by
  unfold pstrip
  have hs := List.dropWhile_suffix (l := (l.dropWhile isPySpace).reverse)
    (p := isPySpace)
  have h2 := List.reverse_prefix.mpr hs
  rwa [List.reverse_reverse] at h2

theorem pstrip_head {l : List Char} {c : Char}
    (h : (pstrip l).head? = some c) : isPySpace c = false := by
  obtain ⟨t, ht⟩ := pstrip_prefix_dropWhile l
  cases hq : pstrip l with
  | nil =>
    rw [hq] at h
    simp at h
  | cons c0 ps =>
    rw [hq] at h ht
    have hc0 : isPySpace c0 = false := by
      refine head_dropWhile_false (p := isPySpace) (l := l) ?_
      rw [← ht]
      rfl
    have heq : c0 = c := by simpa using h
    rwa [← heq]

theorem pstrip_last {l : List Char} {c : Char}
    (h : (pstrip l).getLast? = some c) : isPySpace c = false := by
  unfold pstrip at h
  rw [List.getLast?_reverse] at h
  exact head_dropWhile_false h

/-! Entity-freedom: closure properties of `noEnt`. -/

theorem noEnt_tail {c : Char} {l : List Char} (h : noEnt (c :: l) = true) :
    noEnt l = true := by
  unfold noEnt at h
  simp only [Bool.and_eq_true] at h
  exact h.2

theorem noEnt_cond {c : Char} {l : List Char} (h : noEnt (c :: l) = true)
    (hc : c = '&') : munch l = none := by
  unfold noEnt at h
  simp only [Bool.and_eq_true] at h
  have h1 := h.1
  rw [if_pos hc] at h1
  exact Option.isNone_iff_eq_none.mp h1

theorem takeWhile_append_all {p : Char → Bool} :
    ∀ {R : List Char} (X : List Char), (∀ c, c ∈ R → p c = true) →
      (R ++ X).takeWhile p = R ++ X.takeWhile p := by
  intro R
  induction R with
  | nil => intro X _; rfl
  | cons r R2 ih =>
    intro X hall
    rw [List.cons_append, List.takeWhile_cons,
      if_pos (hall r (List.mem_cons_self _ _)), ih X
        (fun c hc => hall c (List.mem_cons_of_mem _ hc))]
    rfl

theorem dropWhile_append_all {p : Char → Bool} :
    ∀ {R : List Char} (X : List Char), (∀ c, c ∈ R → p c = true) →
      (R ++ X).dropWhile p = X.dropWhile p := by
  intro R
  induction R with
  | nil => intro X _; rfl
  | cons r R2 ih =>
    intro X hall
    rw [List.cons_append, List.dropWhile_cons,
      if_pos (hall r (List.mem_cons_self _ _))]
    exact ih X (fun c hc => hall c (List.mem_cons_of_mem _ hc))

theorem munch_none_append {R X : List Char} (hR : R ≠ [])
    (hall : ∀ c, c ∈ R → isEnt c = true)
    (hX : X = [] ∨ ∃ u X2, X = u :: X2 ∧ isEnt u = false ∧ u ≠ ';') :
    munch (R ++ X) = none := by
  rw [munch_eq_dropWhile, takeWhile_append_all X hall, dropWhile_append_all X hall]
  have hRne : (R ++ X.takeWhile isEnt).isEmpty = false := by
    cases R with
    | nil => exact absurd rfl hR
    | cons r R2 => rfl
  rw [hRne]
  simp only [Bool.false_eq_true, if_false]
  rcases hX with rfl | ⟨u, X2, rfl, hu, hus⟩
  · rfl
  · rw [List.dropWhile_cons, if_neg (by rw [hu]; exact Bool.false_ne_true)]
    split
    · next rest heq =>
      rw [List.cons.injEq] at heq
      first
      | exact absurd heq.1 hus
      | exact absurd heq.1.symm hus
    · rfl

theorem bnot_eq_false {b : Bool} (h : ¬b = true) : b = false := by
  cases b
  · rfl
  · exact absurd rfl h

theorem munch_none_dropWhile {z : List Char} (h : munch z = none)
    (hne : z.takeWhile isEnt ≠ []) :
    z.dropWhile isEnt = [] ∨
      ∃ u t2, z.dropWhile isEnt = u :: t2 ∧ isEnt u = false ∧ u ≠ ';' := by
  rcases hd : z.dropWhile isEnt with _ | ⟨u, t2⟩
  · exact Or.inl rfl
  · have hu : isEnt u = false := head_dropWhile_false (by rw [hd]; rfl)
    by_cases hus : u = ';'
    · exfalso
      subst hus
      rw [munch_eq_dropWhile] at h
      rw [if_neg (by
        intro hemp
        rw [List.isEmpty_eq_true] at hemp
        exact hne hemp)] at h
      rw [hd] at h
      exact Option.noConfusion h
    · exact Or.inr ⟨u, t2, rfl, hu, hus⟩

theorem munch_none_append_left : ∀ {a b : List Char},
    munch (a ++ b) = none → munch a = none := by
  intro a b h
  cases a with
  | nil => rfl
  | cons d t =>
    by_cases hd : isEnt d = true
    · have hR : (d :: t).takeWhile isEnt = d :: t.takeWhile isEnt := by
        rw [List.takeWhile_cons, if_pos hd]
      have hsplit := List.takeWhile_append_dropWhile (p := isEnt) (l := d :: t)
      have hall : ∀ c, c ∈ (d :: t).takeWhile isEnt → isEnt c = true :=
        fun c hc => List.mem_takeWhile_imp hc
      rcases ht2 : (d :: t).dropWhile isEnt with _ | ⟨u, t2⟩
      · rw [munch_eq_dropWhile, ht2]
        split
        · rfl
        · rfl
      · by_cases hus : u = ';'
        · exfalso
          subst hus
          have hdecomp : (d :: t) ++ b =
              (d :: t).takeWhile isEnt ++ (';' :: (t2 ++ b)) := by
            conv_lhs => rw [← hsplit]
            rw [ht2, List.append_assoc, List.cons_append]
          rw [hdecomp, munch_eq_dropWhile,
            takeWhile_append_all (';' :: (t2 ++ b)) hall,
            dropWhile_append_all (';' :: (t2 ++ b)) hall] at h
          have h1 : List.takeWhile isEnt (';' :: (t2 ++ b)) = [] := rfl
          have h2 : List.dropWhile isEnt (';' :: (t2 ++ b)) = ';' :: (t2 ++ b) :=
            rfl
          rw [h1, h2, List.append_nil] at h
          rw [if_neg (by rw [hR]; simp)] at h
          exact Option.noConfusion h
        · have hu : isEnt u = false := head_dropWhile_false (by rw [ht2]; rfl)
          have hm := munch_none_append (R := (d :: t).takeWhile isEnt)
            (X := (d :: t).dropWhile isEnt)
            (by rw [hR]; exact List.cons_ne_nil _ _) hall
            (Or.inr ⟨u, t2, ht2, hu, hus⟩)
          rwa [hsplit] at hm
    · exact munch_none_of_head (Or.inr ⟨d, t, rfl, bnot_eq_false hd⟩)

theorem noEnt_append_left : ∀ {l1 l2 : List Char},
    noEnt (l1 ++ l2) = true → noEnt l1 = true := by
  intro l1
  induction l1 with
  | nil => intro l2 _; rfl
  | cons c t ih =>
    intro l2 h
    rw [List.cons_append] at h
    have htail := noEnt_tail h
    unfold noEnt
    rw [Bool.and_eq_true]
    constructor
    · by_cases hc : c = '&'
      · rw [if_pos hc]
        have hm := noEnt_cond h hc
        rw [Option.isNone_iff_eq_none]
        exact munch_none_append_left hm
      · rw [if_neg hc]
    · exact ih htail

theorem noEnt_dropWhile (p : Char → Bool) : ∀ {l : List Char},
    noEnt l = true → noEnt (l.dropWhile p) = true := by
  intro l
  induction l with
  | nil => intro h; exact h
  | cons c t ih =>
    intro h
    rw [List.dropWhile_cons]
    by_cases hc : p c = true
    · rw [if_pos hc]
      exact ih (noEnt_tail h)
    · rw [if_neg hc]
      exact h

theorem noEnt_of_isPrefix {l1 l2 : List Char} (hp : l1 <+: l2)
    (h : noEnt l2 = true) : noEnt l1 = true := by
  obtain ⟨t, ht⟩ := hp
  rw [← ht] at h
  exact noEnt_append_left h

theorem noEnt_pstrip {l : List Char} (h : noEnt l = true) :
    noEnt (pstrip l) = true :=
  noEnt_of_isPrefix (pstrip_prefix_dropWhile l) (noEnt_dropWhile isPySpace h)

/-! Entity-freedom of the entity-substitution output. -/

theorem sub1F_nil : ∀ f, sub1F f [] = [] := by
  intro f
  cases f
  · rfl
  · rfl

theorem sub1F_cons (f : Nat) (c : Char) (rest : List Char) :
    sub1F (f + 1) (c :: rest) =
      if c = '&' then
        match munch rest with
        | some rest2 => ' ' :: sub1F f rest2
        | none => c :: sub1F f rest
      else c :: sub1F f rest := rfl

theorem sub1F_cons_ne {c : Char} (f : Nat) (rest : List Char) (hc : c ≠ '&') :
    sub1F (f + 1) (c :: rest) = c :: sub1F f rest := by
  rw [sub1F_cons, if_neg hc]

theorem sub1F_cons_amp_none {rest : List Char} (f : Nat)
    (hm : munch rest = none) :
    sub1F (f + 1) ('&' :: rest) = '&' :: sub1F f rest := by
  rw [sub1F_cons, if_pos rfl, hm]

theorem sub1F_cons_amp_some {rest r2 : List Char} (f : Nat)
    (hm : munch rest = some r2) :
    sub1F (f + 1) ('&' :: rest) = ' ' :: sub1F f r2 := by
  rw [sub1F_cons, if_pos rfl, hm]

theorem sub1F_append_ents : ∀ (R : List Char) (fuel : Nat) (t : List Char),
    (∀ c, c ∈ R → isEnt c = true) → R.length ≤ fuel →
    sub1F fuel (R ++ t) = R ++ sub1F (fuel - R.length) t := by
  intro R
  induction R with
  | nil => intro fuel t _ _; simp
  | cons r R2 ih =>
    intro fuel t hall hlen
    cases fuel with
    | zero => simp at hlen
    | succ f =>
      have hr : isEnt r = true := hall r (List.mem_cons_self _ _)
      have harith : f + 1 - (r :: R2).length = f - R2.length := by
        simp only [List.length_cons]
        omega
      rw [harith]
      conv_lhs => rw [List.cons_append]
      have hstep : sub1F (f + 1) (r :: (R2 ++ t)) = r :: sub1F f (R2 ++ t) :=
        sub1F_cons_ne f (R2 ++ t) (ent_ne_amp hr)
      rw [hstep, ih f t (fun c hc => hall c (List.mem_cons_of_mem _ hc))
        (by simp only [List.length_cons] at hlen; omega)]
      rfl

theorem sub1F_cons_head : ∀ (f : Nat) (u : Char) (t : List Char),
    ∃ v X2, sub1F f (u :: t) = v :: X2 ∧ (v = u ∨ v = ' ' ∨ v = '&') := by
  intro f u t
  cases f with
  | zero => exact ⟨u, t, rfl, Or.inl rfl⟩
  | succ f2 =>
    by_cases hu : u = '&'
    · subst hu
      rcases hm : munch t with _ | r2
      · exact ⟨'&', sub1F f2 t, sub1F_cons_amp_none f2 hm, Or.inr (Or.inr rfl)⟩
      · exact ⟨' ', sub1F f2 r2, sub1F_cons_amp_some f2 hm, Or.inr (Or.inl rfl)⟩
    · exact ⟨u, sub1F f2 t, sub1F_cons_ne f2 t hu, Or.inl rfl⟩

theorem munch_none_sub1F {fuel : Nat} {rest : List Char} (h : munch rest = none)
    (hlen : rest.length ≤ fuel) : munch (sub1F fuel rest) = none := by
  cases rest with
  | nil => rw [sub1F_nil]; rfl
  | cons d t =>
    by_cases hd : isEnt d = true
    · have hR : (d :: t).takeWhile isEnt = d :: t.takeWhile isEnt := by
        rw [List.takeWhile_cons, if_pos hd]
      have hall : ∀ c, c ∈ (d :: t).takeWhile isEnt → isEnt c = true :=
        fun c hc => List.mem_takeWhile_imp hc
      have hsplit := List.takeWhile_append_dropWhile (p := isEnt) (l := d :: t)
      have hRlen : ((d :: t).takeWhile isEnt).length ≤ (d :: t).length :=
        (List.takeWhile_sublist _).length_le
      have hdw := munch_none_dropWhile h
        (by rw [hR]; exact List.cons_ne_nil _ _)
      have hsub : sub1F fuel (d :: t) =
          (d :: t).takeWhile isEnt ++
            sub1F (fuel - ((d :: t).takeWhile isEnt).length)
              ((d :: t).dropWhile isEnt) := by
        conv_lhs => rw [← hsplit]
        exact sub1F_append_ents _ _ _ hall (by omega)
      rw [hsub]
      refine munch_none_append (by rw [hR]; exact List.cons_ne_nil _ _) hall ?_
      rcases hdw with hnil | ⟨u, t2, hcons, hu, hus⟩
      · rw [hnil, sub1F_nil]
        exact Or.inl rfl
      · rw [hcons]
        obtain ⟨v, X2, hv, hvor⟩ := sub1F_cons_head
          (fuel - ((d :: t).takeWhile isEnt).length) u t2
        rw [hv]
        refine Or.inr ⟨v, X2, rfl, ?_, ?_⟩
        · rcases hvor with rfl | rfl | rfl
          · exact hu
          · decide
          · decide
        · rcases hvor with rfl | rfl | rfl
          · exact hus
          · decide
          · decide
    · obtain ⟨v, X2, hv, hvor⟩ := sub1F_cons_head fuel d t
      rw [hv]
      refine munch_none_of_head (Or.inr ⟨v, X2, rfl, ?_⟩)
      rcases hvor with rfl | rfl | rfl
      · exact bnot_eq_false hd
      · decide
      · decide

theorem noEnt_sub1F : ∀ (fuel : Nat) (cs : List Char), cs.length ≤ fuel →
    noEnt (sub1F fuel cs) = true := by
  intro fuel
  induction fuel with
  | zero =>
    intro cs hl
    have hnil : cs = [] := List.length_eq_zero.mp (by omega)
    subst hnil
    rfl
  | succ f ih =>
    intro cs hl
    cases cs with
    | nil => rfl
    | cons c rest =>
      simp only [List.length_cons] at hl
      by_cases hc : c = '&'
      · subst hc
        rcases hm : munch rest with _ | r2
        · have hout := sub1F_cons_amp_none f hm
          rw [hout]
          unfold noEnt
          rw [Bool.and_eq_true]
          refine ⟨?_, ih rest (by omega)⟩
          rw [if_pos rfl, Option.isNone_iff_eq_none]
          exact munch_none_sub1F hm (by omega)
        · have hr2len := munch_some_length hm
          have hout := sub1F_cons_amp_some f hm
          rw [hout]
          unfold noEnt
          rw [Bool.and_eq_true]
          refine ⟨?_, ih r2 (by omega)⟩
          rw [if_neg (by decide)]
      · have hout := sub1F_cons_ne f rest hc
        rw [hout]
        unfold noEnt
        rw [Bool.and_eq_true]
        refine ⟨?_, ih rest (by omega)⟩
        rw [if_neg hc]

theorem sub1F_fix : ∀ (fuel : Nat) (cs : List Char), noEnt cs = true →
    sub1F fuel cs = cs := by
  intro fuel
  induction fuel with
  | zero => intro cs _; rfl
  | succ f ih =>
    intro cs h
    cases cs with
    | nil => rfl
    | cons c rest =>
      by_cases hc : c = '&'
      · have hm : munch rest = none := noEnt_cond h hc
        subst hc
        rw [sub1F_cons_amp_none f hm, ih rest (noEnt_tail h)]
      · rw [sub1F_cons_ne f rest hc, ih rest (noEnt_tail h)]

/-! Entity-freedom through the control-character substitution. -/

theorem map_fix {f : Char → Char} : ∀ {l : List Char},
    (∀ c, c ∈ l → f c = c) → l.map f = l := by
  intro l
  induction l with
  | nil => intro _; rfl
  | cons c rest ih =>
    intro h
    rw [List.map_cons, h c (List.mem_cons_self _ _),
      ih (fun d hd => h d (List.mem_cons_of_mem _ hd))]

theorem ctrlSpace_ent (c : Char) :
    isEnt (if isCtrl c then ' ' else c) = isEnt c := by
  by_cases h : isCtrl c = true
  · rw [if_pos h]
    have h2 : isEnt c = false := by
      rw [← Bool.not_eq_true]
      intro he
      rw [ent_not_ctrl he] at h
      exact Bool.noConfusion h
    rw [h2]
    decide
  · rw [if_neg h]

theorem ctrlSpace_semi (c : Char) :
    ((if isCtrl c then ' ' else c) = ';') ↔ c = ';' := by
  by_cases h : isCtrl c = true
  · rw [if_pos h]
    constructor
    · intro h2
      exact absurd h2 (by decide)
    · intro h2
      rw [h2] at h
      exact absurd h (by decide)
  · rw [if_neg h]

theorem ctrlSpace_amp (c : Char) :
    ((if isCtrl c then ' ' else c) = '&') ↔ c = '&' := by
  by_cases h : isCtrl c = true
  · rw [if_pos h]
    constructor
    · intro h2
      exact absurd h2 (by decide)
    · intro h2
      rw [h2] at h
      exact absurd h (by decide)
  · rw [if_neg h]

theorem munch_none_sub2 : ∀ {z : List Char}, munch z = none →
    munch (sub2 z) = none := by
  intro z h
  cases z with
  | nil => rfl
  | cons d t =>
    by_cases hd : isEnt d = true
    · have hR : (d :: t).takeWhile isEnt = d :: t.takeWhile isEnt := by
        rw [List.takeWhile_cons, if_pos hd]
      have hall : ∀ c, c ∈ (d :: t).takeWhile isEnt → isEnt c = true :=
        fun c hc => List.mem_takeWhile_imp hc
      have hsplit := List.takeWhile_append_dropWhile (p := isEnt) (l := d :: t)
      have hdw := munch_none_dropWhile h
        (by rw [hR]; exact List.cons_ne_nil _ _)
      have hsub : sub2 (d :: t) =
          (d :: t).takeWhile isEnt ++ sub2 ((d :: t).dropWhile isEnt) := by
        conv_lhs => rw [← hsplit]
        unfold sub2
        rw [List.map_append,
          map_fix (fun c hc => by
            rw [if_neg (by
              rw [ent_not_ctrl (hall c hc)]
              exact Bool.false_ne_true)])]
      rw [hsub]
      refine munch_none_append (by rw [hR]; exact List.cons_ne_nil _ _) hall ?_
      rcases hdw with hnil | ⟨u, t2, hcons, hu, hus⟩
      · rw [hnil]
        exact Or.inl rfl
      · rw [hcons]
        unfold sub2
        rw [List.map_cons]
        refine Or.inr ⟨_, _, rfl, ?_, ?_⟩
        · rw [ctrlSpace_ent u]
          exact hu
        · intro hsemi
          exact hus ((ctrlSpace_semi u).mp hsemi)
    · have hsub : sub2 (d :: t) =
          (if isCtrl d then ' ' else d) :: sub2 t := rfl
      rw [hsub]
      refine munch_none_of_head (Or.inr ⟨_, _, rfl, ?_⟩)
      rw [ctrlSpace_ent d]
      exact bnot_eq_false hd

theorem noEnt_sub2 : ∀ {z : List Char}, noEnt z = true →
    noEnt (sub2 z) = true := by
  intro z
  induction z with
  | nil => intro h; exact h
  | cons c rest ih =>
    intro h
    have hc2 : sub2 (c :: rest) = (if isCtrl c then ' ' else c) :: sub2 rest :=
      rfl
    rw [hc2]
    unfold noEnt
    rw [Bool.and_eq_true]
    refine ⟨?_, ih (noEnt_tail h)⟩
    by_cases hamp : (if isCtrl c then ' ' else c) = '&'
    · rw [if_pos hamp]
      have hc_amp : c = '&' := (ctrlSpace_amp c).mp hamp
      rw [Option.isNone_iff_eq_none]
      exact munch_none_sub2 (noEnt_cond h hc_amp)
    · rw [if_neg hamp]

theorem sub2_fix {l : List Char} (h : ∀ c, c ∈ l → isCtrl c = false) :
    sub2 l = l := by
  unfold sub2
  refine map_fix (fun c hc => ?_)
  rw [if_neg (by rw [h c hc]; exact Bool.false_ne_true)]

/-! Entity-freedom through whitespace collapsing, and the fixed points. -/

theorem collapseAux_cons (b : Bool) (c : Char) (rest : List Char) :
    collapseAux b (c :: rest) =
      if isPySpace c then
        if b then collapseAux true rest else ' ' :: collapseAux true rest
      else c :: collapseAux false rest := rfl

theorem CA_append : ∀ (R : List Char) (b : Bool) (X : List Char), R ≠ [] →
    (∀ c, c ∈ R → isPySpace c = false) →
    collapseAux b (R ++ X) = R ++ collapseAux false X := by
  intro R
  induction R with
  | nil => intro b X h _; exact absurd rfl h
  | cons r R2 ih =>
    intro b X _ hall
    have hr := hall r (List.mem_cons_self _ _)
    rw [List.cons_append, collapseAux_cons,
      if_neg (by rw [hr]; exact Bool.false_ne_true)]
    cases R2 with
    | nil => rfl
    | cons y R3 =>
      rw [ih false X (List.cons_ne_nil _ _)
        (fun c hc => hall c (List.mem_cons_of_mem _ hc))]
      rfl

theorem munch_none_collapseAux : ∀ {t : List Char}, munch t = none →
    munch (collapseAux false t) = none := by
  intro t h
  cases t with
  | nil => rfl
  | cons d t2 =>
    by_cases hd : isEnt d = true
    · have hR : (d :: t2).takeWhile isEnt = d :: t2.takeWhile isEnt := by
        rw [List.takeWhile_cons, if_pos hd]
      have hall : ∀ c, c ∈ (d :: t2).takeWhile isEnt → isEnt c = true :=
        fun c hc => List.mem_takeWhile_imp hc
      have hsplit := List.takeWhile_append_dropWhile (p := isEnt) (l := d :: t2)
      have hdw := munch_none_dropWhile h
        (by rw [hR]; exact List.cons_ne_nil _ _)
      have hsub : collapseAux false (d :: t2) =
          (d :: t2).takeWhile isEnt ++
            collapseAux false ((d :: t2).dropWhile isEnt) := by
        conv_lhs => rw [← hsplit]
        exact CA_append _ _ _ (by rw [hR]; exact List.cons_ne_nil _ _)
          (fun c hc => ent_not_space (hall c hc))
      rw [hsub]
      refine munch_none_append (by rw [hR]; exact List.cons_ne_nil _ _) hall ?_
      rcases hdw with hnil | ⟨u, t3, hcons, hu, hus⟩
      · rw [hnil]
        exact Or.inl rfl
      · rw [hcons]
        by_cases husp : isPySpace u = true
        · rw [collapseAux_cons, if_pos husp, if_neg (by decide)]
          exact Or.inr ⟨' ', _, rfl, by decide, by decide⟩
        · rw [collapseAux_cons, if_neg husp]
          exact Or.inr ⟨u, _, rfl, hu, hus⟩
    · by_cases hsp : isPySpace d = true
      · rw [collapseAux_cons, if_pos hsp, if_neg (by decide)]
        exact munch_none_of_head (Or.inr ⟨' ', _, rfl, by decide⟩)
      · rw [collapseAux_cons, if_neg hsp]
        exact munch_none_of_head (Or.inr ⟨d, _, rfl, bnot_eq_false hd⟩)

theorem noEnt_collapseAux : ∀ (l : List Char) (b : Bool), noEnt l = true →
    noEnt (collapseAux b l) = true := by
  intro l
  induction l with
  | nil => intro b h; exact h
  | cons c rest ih =>
    intro b h
    by_cases hsp : isPySpace c = true
    · rw [collapseAux_cons, if_pos hsp]
      cases b with
      | true =>
        rw [if_pos rfl]
        exact ih true (noEnt_tail h)
      | false =>
        rw [if_neg (by decide)]
        unfold noEnt
        rw [Bool.and_eq_true]
        exact ⟨by rw [if_neg (by decide)], ih true (noEnt_tail h)⟩
    · rw [collapseAux_cons, if_neg hsp]
      unfold noEnt
      rw [Bool.and_eq_true]
      refine ⟨?_, ih false (noEnt_tail h)⟩
      by_cases hamp : c = '&'
      · rw [if_pos hamp, Option.isNone_iff_eq_none]
        exact munch_none_collapseAux (noEnt_cond h hamp)
      · rw [if_neg hamp]

theorem collapseAux_true_eq_false {l : List Char}
    (h : ∀ d, l.head? = some d → isPySpace d = false) :
    collapseAux true l = collapseAux false l := by
  cases l with
  | nil => rfl
  | cons d rest =>
    have hd := h d rfl
    rw [collapseAux_cons, collapseAux_cons,
      if_neg (by rw [hd]; exact Bool.false_ne_true),
      if_neg (by rw [hd]; exact Bool.false_ne_true)]

theorem collapseAux_fix : ∀ (l : List Char), noTwoAdjSpaces l = true →
    (∀ c, c ∈ l → isPySpace c = true → c = ' ') →
    collapseAux false l = l := by
  intro l
  induction l with
  | nil => intro _ _; rfl
  | cons c rest ih =>
    intro hnt hsp
    by_cases hc : isPySpace c = true
    · have hceq : c = ' ' := hsp c (List.mem_cons_self _ _) hc
      rw [collapseAux_cons, if_pos hc, if_neg (by decide)]
      have hrest_head : ∀ d, rest.head? = some d → isPySpace d = false := by
        intro d hd
        have h2 := noTwo_head_pair hnt d hd
        rw [hc] at h2
        simpa using h2
      rw [collapseAux_true_eq_false hrest_head,
        ih (noTwo_tail hnt)
          (fun d hd hsp2 => hsp d (List.mem_cons_of_mem _ hd) hsp2), hceq]
    · rw [collapseAux_cons, if_neg hc,
        ih (noTwo_tail hnt)
          (fun d hd hsp2 => hsp d (List.mem_cons_of_mem _ hd) hsp2)]

theorem dropWhile_eq_self_of_head {p : Char → Bool} {l : List Char}
    (h : ∀ c, l.head? = some c → p c = false) : l.dropWhile p = l := by
  cases l with
  | nil => rfl
  | cons c rest =>
    rw [List.dropWhile_cons, if_neg (by rw [h c rfl]; exact Bool.false_ne_true)]

theorem pstrip_fix {l : List Char}
    (hh : ∀ c, l.head? = some c → isPySpace c = false)
    (hl : ∀ c, l.getLast? = some c → isPySpace c = false) : pstrip l = l := by
  unfold pstrip
  rw [dropWhile_eq_self_of_head hh,
    dropWhile_eq_self_of_head (by
      intro c hc
      rw [List.head?_reverse] at hc
      exact hl c hc)]
  exact List.reverse_reverse l

theorem clean_text_eq {l : List Char} (h : l.isEmpty = false) :
    clean_text l = collapseAux false (pstrip (sub2 (sub1 l))) := by
  unfold clean_text
  rw [if_neg (by rw [h]; exact Bool.false_ne_true)]
  rfl

/-- C10: `clean_text` output contains no control or non-printable
character (0x00–0x1F, 0x7F–0x9F, 0xA0), has no two consecutive whitespace
characters and no leading or trailing whitespace; empty (falsy) input
yields the empty string; and `clean_text` is idempotent. -/
theorem spec_c10 (cs : List Char) :
    (∀ c, c ∈ clean_text cs → isCtrl c = false) ∧
    noTwoAdjSpaces (clean_text cs) = true ∧
    (∀ c, (clean_text cs).head? = some c → isPySpace c = false) ∧
    (∀ c, (clean_text cs).getLast? = some c → isPySpace c = false) ∧
    clean_text [] = [] ∧
    clean_text (clean_text cs) = clean_text cs := by
  by_cases hcs : cs.isEmpty = true
  · rw [List.isEmpty_eq_true] at hcs
    subst hcs
    exact ⟨fun c hc => absurd hc (by simp [clean_text]),
      rfl,
      fun c hc => by simp [clean_text] at hc,
      fun c hc => by simp [clean_text] at hc,
      rfl, rfl⟩
  · have hct := clean_text_eq (bnot_eq_false hcs)
    have hmem : ∀ c, c ∈ clean_text cs → isCtrl c = false := by
      intro c hc
      rw [hct] at hc
      rcases mem_collapseAux _ false c hc with h | h
      · exact mem_sub2_not_ctrl (mem_pstrip h)
      · rw [h]
        decide
    have hnt : noTwoAdjSpaces (clean_text cs) = true := by
      rw [hct]
      exact noTwo_collapseAux _ false
    have hws : ∀ c, c ∈ clean_text cs → isPySpace c = true → c = ' ' := by
      intro c hc hsp
      rw [hct] at hc
      exact space_mem_collapseAux _ false c hc hsp
    have hhead : ∀ c, (clean_text cs).head? = some c → isPySpace c = false := by
      intro c hc
      rw [hct] at hc
      rcases hq : pstrip (sub2 (sub1 cs)) with _ | ⟨d, rest⟩
      · rw [hq] at hc
        simp [collapseAux] at hc
      · have hd : isPySpace d = false := pstrip_head (by rw [hq]; rfl)
        rw [hq, collapseAux_cons,
          if_neg (by rw [hd]; exact Bool.false_ne_true)] at hc
        have hdc : d = c := by simpa using hc
        rw [← hdc]
        exact hd
    have hlast : ∀ c, (clean_text cs).getLast? = some c → isPySpace c = false := by
      intro c hc
      rw [hct] at hc
      exact collapseAux_last _ false c (fun d hd => pstrip_last hd) hc
    have hid : clean_text (clean_text cs) = clean_text cs := by
      by_cases hy0 : (clean_text cs).isEmpty = true
      · rw [List.isEmpty_eq_true] at hy0
        rw [hy0]
        rfl
      · have hne : noEnt (clean_text cs) = true := by
          rw [hct]
          exact noEnt_collapseAux _ false
            (noEnt_pstrip (noEnt_sub2 (noEnt_sub1F _ _ (le_refl _))))
        have h1 : sub1 (clean_text cs) = clean_text cs :=
          sub1F_fix _ _ hne
        have h2 : sub2 (clean_text cs) = clean_text cs := sub2_fix hmem
        have h3 : pstrip (clean_text cs) = clean_text cs :=
          pstrip_fix hhead hlast
        have h4 : collapseAux false (clean_text cs) = clean_text cs :=
          collapseAux_fix _ hnt hws
        rw [clean_text_eq (bnot_eq_false hy0), h1, h2, h3, h4]
    exact ⟨hmem, hnt, hhead, hlast, rfl, hid⟩

theorem spec_c10_witness :
    isCtrl 'a' = false ∧
    clean_text (clean_text ("  a \t\tb  &amp; c ".toList)) =
      clean_text ("  a \t\tb  &amp; c ".toList) := by
  have h := spec_c10 ("  a \t\tb  &amp; c ".toList)
  exact ⟨h.1 'a' (by decide), h.2.2.2.2.2⟩
